import Mathlib

/-!
Verification development for the bls_agent pipeline orchestrator.

The source is a pair of Temporal workflows (the BLS release summarizer in
internal/workflows/bls and the arXiv paper-of-the-day filter in
internal/workflows/arxiv) over activities in internal/workflows/*/activities.go,
pkg/bls/bls.go and the llm package.  The shallow embedding below models:

* parsed JSON values and Go json.Unmarshal into the response structs;
* the durable stage-record executor (modelled from the spec, since it is
  provided by the Temporal runtime and not by this repository's code) and the
  BLS workflow loop over it;
* the arXiv workflow loop (which aborts the run on any item failure);
* the required-set computation of the schema generator;
* FindEvents and ExtractSummary from pkg/bls/bls.go;
* timed variants of both workflow loops for the rate-limit timers.

External collaborators (HTTP, calendar, Twitter, the LLM transport) are
deterministic environments supplying each call's outcome.
-/

/-- Parsed JSON values, modelling the data produced by Go's encoding/json. -/
inductive Json where
  | null
  | bool (b : Bool)
  | num (n : Int)
  | str (s : String)
  | arr (elems : List Json)
  | obj (fields : List (String × Json))

/-- Byte count of a character list under UTF-8. -/
def utf8Len : List Char → Nat
  | [] => 0
  | c :: cs => c.utf8Size + utf8Len cs

/-- Models Go's `len(s)` on a string: its UTF-8 byte count. -/
def goLen (s : String) : Nat := utf8Len s.data

/-- ASCII lower-casing of one character. -/
def lowerChar (c : Char) : Char :=
  if 'A' ≤ c ∧ c ≤ 'Z' then Char.ofNat (c.toNat + 32) else c

/-- ASCII lower-casing of a string. -/
def lowerAscii (s : String) : String := ⟨s.data.map lowerChar⟩

/-- Models Go's case-insensitive key matching (strings.EqualFold) for the ASCII
field keys used in this development. -/
def eqFold (a b : String) : Bool := lowerAscii a == lowerAscii b

/-- Models encoding/json Unmarshal of a parsed object's fields into
TweetResponse (workflow.go lines 31-33; one field `tweet string`): object keys
are matched against the field, preferring an exact match but also accepting a
case-insensitive match; a later matching key overwrites an earlier one; a
matching key with a value that is neither a string nor null makes Unmarshal
report an error; null leaves the value unchanged. -/
def stringFieldStep (v : Json) (acc : String) : Option String :=
  match v with
  | .null => some acc
  | .bool _ => none
  | .num _ => none
  | .str s => some s
  | .arr _ => none
  | .obj _ => none

def decodeTweetFields : List (String × Json) → String → Except String String
  | [], acc => .ok acc
  | (k, v) :: rest, acc =>
    if eqFold k "tweet" then
      match stringFieldStep v acc with
      | some acc2 => decodeTweetFields rest acc2
      | none => .error "json: cannot unmarshal value into field tweet of type string"
    else decodeTweetFields rest acc

/-- Go json.Unmarshal of a parsed JSON value into TweetResponse: null is a
no-op, an object decodes its fields, anything else is a type error. -/
def tweetFromJson : Json → Except String String
  | .null => .ok ""
  | .bool _ => .error "json: cannot unmarshal value into TweetResponse"
  | .num _ => .error "json: cannot unmarshal value into TweetResponse"
  | .str _ => .error "json: cannot unmarshal value into TweetResponse"
  | .arr _ => .error "json: cannot unmarshal value into TweetResponse"
  | .obj fields => decodeTweetFields fields ""

/-- The BLS workflow's handling of the LLM response (workflow.go lines 131-176).
The activity's own error is discarded (line 131's err is overwritten), leaving
resp empty, which fails to unmarshal; `.ok none` stands for a resp string that
is not valid JSON.  An unparseable response or a tweet longer than 280 bytes is
skipped before the timer wait; an empty tweet is skipped after the timer wait;
otherwise the tweet is posted.  `none` = skip without awaiting the timer,
`some none` = skip after awaiting it, `some (some t)` = post tweet `t`. -/
def tweetPath : Except String (Option Json) → Option (Option String)
  | .error _ => none
  | .ok none => none
  | .ok (some j) =>
    match tweetFromJson j with
    | .error _ => none
    | .ok t => if 280 < goLen t then none else if t = "" then some none else some (some t)

/-- The tweet the workflow accepts from an LLM response, if any. -/
def acceptTweet (r : Except String (Option Json)) : Option String :=
  match tweetPath r with
  | some (some t) => some t
  | _ => none

/-- External interactions of the Twitter activity. -/
inductive Eff where
  | clientCreated
  | tweetPosted (text : String)
deriving DecidableEq, Repr

/-- Outcomes of the Twitter collaborator: client construction and per-text
posting. -/
structure TwitterEnv where
  clientErr : Option String
  postErr : String → Option String

/-- Models PostTweetActivity (activities.go lines 174-212): with forReal = false
it logs and returns nil immediately, creating no Twitter client and performing
no network call; otherwise it creates a client and posts the tweet.  The second
component records the external interactions performed. -/
def PostTweetActivity (text : String) (forReal : Bool) (tw : TwitterEnv) :
    Except String Unit × List Eff :=
  if forReal = false then (.ok (), [])
  else
    match tw.clientErr with
    | some e => (.error ("failed to create Twitter client: " ++ e), [.clientCreated])
    | none =>
      match tw.postErr text with
      | some e => (.error ("failed to post tweet: " ++ e), [.clientCreated, .tweetPosted text])
      | none => (.ok (), [.clientCreated, .tweetPosted text])

/-- Stage names of the BLS workflow's recorded operations. -/
inductive Stage where
  | discover
  | fetch
  | extract
  | llm
  | post
deriving DecidableEq, Repr

/-- A recorded stage value: the discovery stage records the event list, fetch
and extract record strings, the llm stage records the response (as its parse
result), the post stage records unit. -/
inductive SVal where
  | str (s : String)
  | events (es : List String)
  | resp (r : Option Json)
  | unit

/-- Result of a stage operation: its value or its error. -/
abbrev StageRes := Except String SVal

/-- StageRecord key: (runID, itemKey, stageName). -/
abbrev Key := String × Nat × Stage

/-- The durable StageRecord store: at most one record per key. -/
abbrev Store := Key → Option StageRes

/-- The store of a run that has not started. -/
def emptyStore : Store := fun _ => none

def updStore (st : Store) (k : Key) (r : StageRes) : Store :=
  fun k2 => if k2 = k then some r else st k2

/-- Result of executing a (possibly recorded) fragment: its value, the store
afterwards, how many operations were actually invoked, and the external effects
of those invocations. -/
structure ExecRes (α : Type) where
  res : α
  store : Store
  calls : Nat
  effs : List Eff

/-- Modelled from the spec: the StageExecutor over the durable StageRecord
store (spec §3, §4.3, §9) — in the source this replay mechanism is provided by
the Temporal runtime, which is not part of this repository.  Before invoking
`op`, the record keyed by (runID, itemKey, stageName) is consulted; if present,
its stored result is returned without re-invoking the operation; otherwise the
operation is invoked, a record with its result (success or error) is persisted,
and the result returned. -/
def execOne (st : Store) (k : Key) (op : Unit → StageRes × List Eff) : ExecRes StageRes :=
  match st k with
  | some r => ⟨r, st, 0, []⟩
  | none => ⟨(op ()).1, updStore st k (op ()).1, 1, (op ()).2⟩

/-- Deterministic external world of one BLS run: the outcome of each
collaborator call made by the activities, per item index.  tweetForReal is
params.TweetForReal, which the workflow body never consults. -/
structure Env where
  discover : Except String (List String)
  fetch : Nat → Except String String
  extract : Nat → String → Except String String
  llm : Nat → String → Except String (Option Json)
  twitter : TwitterEnv
  tweetForReal : Bool

/-- Reading the llm stage's record back as the response it recorded. -/
def respOf : StageRes → Except String (Option Json)
  | .error e => .error e
  | .ok (.resp r) => .ok r
  | .ok _ => .error "ill-typed stage record"

/-- One iteration of the BLS workflow loop (workflow.go lines 60-177), each
activity routed through the stage executor: fetch the release HTML, extract the
summary, run the schema-constrained LLM completion, and — when the response
yields an acceptable tweet — post it with forReal hardcoded to false (line 165).
A skipped item yields `none`. -/
def runItem (rid : String) (env : Env) (i : Nat) (st : Store) : ExecRes (Option String) :=
  let F := execOne st (rid, i, Stage.fetch) (fun _ => ((env.fetch i).map .str, []))
  match F.res with
  | .error _ => ⟨none, F.store, F.calls, F.effs⟩
  | .ok fv =>
    let html := match fv with | .str s => s | _ => ""
    let X := execOne F.store (rid, i, Stage.extract) (fun _ => ((env.extract i html).map .str, []))
    match X.res with
    | .error _ => ⟨none, X.store, F.calls + X.calls, F.effs ++ X.effs⟩
    | .ok xv =>
      let txt := match xv with | .str s => s | _ => ""
      let L := execOne X.store (rid, i, Stage.llm) (fun _ => ((env.llm i txt).map .resp, []))
      match acceptTweet (respOf L.res) with
      | none => ⟨none, L.store, F.calls + X.calls + L.calls, F.effs ++ X.effs ++ L.effs⟩
      | some tw =>
        let P := execOne L.store (rid, i, Stage.post) (fun _ =>
          let pr := PostTweetActivity tw false env.twitter
          (pr.1.map fun _ => SVal.unit, pr.2))
        match P.res with
        | .error _ =>
          ⟨none, P.store, F.calls + X.calls + L.calls + P.calls,
            F.effs ++ X.effs ++ L.effs ++ P.effs⟩
        | .ok _ =>
          ⟨some tw, P.store, F.calls + X.calls + L.calls + P.calls,
            F.effs ++ X.effs ++ L.effs ++ P.effs⟩

/-- The BLS loop over the (indexed) discovered events, in discovery order. -/
def runItems (rid : String) (env : Env) (idxs : List Nat) (st : Store) : ExecRes (List String) :=
  match idxs with
  | [] => ⟨[], st, 0, []⟩
  | i :: rest =>
    let R := runItem rid env i st
    let Rs := runItems rid env rest R.store
    ⟨match R.res with | some t => t :: Rs.res | none => Rs.res,
      Rs.store, R.calls + Rs.calls, R.effs ++ Rs.effs⟩

/-- BLSReleaseSummaryWorkflow (workflow.go lines 36-179) over the durable
store: event discovery first — its failure aborts the run wrapped as "failed to
find events" — then each event is processed in order, skipped items omitted
from the returned list.  An empty discovery yields the empty list and no
error. -/
def runBLS (rid : String) (env : Env) (st : Store) : ExecRes (Except String (List String)) :=
  let D := execOne st (rid, 0, Stage.discover) (fun _ => ((env.discover).map .events, []))
  match D.res with
  | .error e => ⟨.error ("failed to find events: " ++ e), D.store, D.calls, D.effs⟩
  | .ok dv =>
    let evs := match dv with | .events es => es | _ => []
    let R := runItems rid env (List.range evs.length) D.store
    ⟨.ok R.res, R.store, D.calls + R.calls, D.effs ++ R.effs⟩

/-- The HTML an item's fetch stage yields (its value on success). -/
def canonHtml (env : Env) (i : Nat) : String :=
  match env.fetch i with
  | .ok h => h
  | .error _ => ""

/-- The text an item's extract stage yields. -/
def canonTxt (env : Env) (i : Nat) : String :=
  match env.extract i (canonHtml env i) with
  | .ok t => t
  | .error _ => ""

/-- The item's LLM response along the canonical (store-free) run. -/
def canonLlm (env : Env) (i : Nat) : Except String (Option Json) :=
  env.llm i (canonTxt env i)

/-- The tweet the item accepts along the canonical run, if any. -/
def canonTweet (env : Env) (i : Nat) : Option String := acceptTweet (canonLlm env i)

/-- The value recorded for each stage of item `i` in a run driven by `env`. -/
def canonVal (env : Env) (i : Nat) : Stage → StageRes
  | .discover => (env.discover).map .events
  | .fetch => (env.fetch i).map .str
  | .extract => (env.extract i (canonHtml env i)).map .str
  | .llm => (canonLlm env i).map .resp
  | .post =>
    (PostTweetActivity ((canonTweet env i).getD "") false env.twitter).1.map fun _ => SVal.unit

/-- Store-free outcome of one item: `some tweet` exactly when the item reaches
the Published state and contributes to the run's output. -/
def itemOut (env : Env) (i : Nat) : Option String :=
  match env.fetch i with
  | .error _ => none
  | .ok html =>
    match env.extract i html with
    | .error _ => none
    | .ok txt =>
      match acceptTweet (env.llm i txt) with
      | none => none
      | some tw =>
        match (PostTweetActivity tw false env.twitter).1 with
        | .error _ => none
        | .ok _ => some tw

/-- The stages item `i` actually executes (and records) under `env`. -/
def consulted (env : Env) (i : Nat) : List Stage :=
  match env.fetch i with
  | .error _ => [.fetch]
  | .ok html =>
    match env.extract i html with
    | .error _ => [.fetch, .extract]
    | .ok txt =>
      match acceptTweet (env.llm i txt) with
      | none => [.fetch, .extract, .llm]
      | some _ => [.fetch, .extract, .llm, .post]

/-- The stage names an item's executor may touch. -/
def itemStages : List Stage := [.fetch, .extract, .llm, .post]

/-- Writing the canonical records of the given stages of item `i`. -/
def writeStages (rid : String) (env : Env) (i : Nat) (st : Store) : List Stage → Store
  | [] => st
  | s :: rest => writeStages rid env i (updStore st (rid, i, s) (canonVal env i s)) rest

/-- Deterministic external world of one arXiv PaperOfTheDay run. -/
structure AEnv where
  ids : Except String (List String)
  abs : Nat → Except String String
  llm : Nat → Except String (Option Json)

/-- Models encoding/json Unmarshal of object fields into the keeper struct
(arxiv/workflow.go lines 47-49; one field `keep bool`), with Go's key
matching. -/
def boolFieldStep (v : Json) (acc : Bool) : Option Bool :=
  match v with
  | .null => some acc
  | .bool b => some b
  | .num _ => none
  | .str _ => none
  | .arr _ => none
  | .obj _ => none

def decodeKeepFields : List (String × Json) → Bool → Except String Bool
  | [], acc => .ok acc
  | (k, v) :: rest, acc =>
    if eqFold k "keep" then
      match boolFieldStep v acc with
      | some acc2 => decodeKeepFields rest acc2
      | none => .error "json: cannot unmarshal value into field keep of type bool"
    else decodeKeepFields rest acc

/-- Go json.Unmarshal of a parsed JSON value into the keeper struct. -/
def keepFromJson : Json → Except String Bool
  | .null => .ok false
  | .bool _ => .error "json: cannot unmarshal value into keeper"
  | .num _ => .error "json: cannot unmarshal value into keeper"
  | .str _ => .error "json: cannot unmarshal value into keeper"
  | .arr _ => .error "json: cannot unmarshal value into keeper"
  | .obj fields => decodeKeepFields fields false

/-- One iteration body of PaperOfTheDayWorkflow (arxiv/workflow.go lines
34-122): fetch the abstract, run the schema-constrained completion, unmarshal
the keeper decision.  Every failure is returned — and, in the workflow, aborts
the whole run.  `.ok b` means the paper is kept iff `b`. -/
def arxivItem (env : AEnv) (i : Nat) : Except String Bool :=
  match env.abs i with
  | .error e => .error ("failed to get arxiv abstract: " ++ e)
  | .ok _ =>
    match env.llm i with
    | .error e => .error ("failed to complete with schema: " ++ e)
    | .ok none => .error "failed to unmarshal response into keeper: invalid JSON"
    | .ok (some j) =>
      match keepFromJson j with
      | .error e => .error ("failed to unmarshal response into keeper: " ++ e)
      | .ok b => .ok b

/-- The arXiv loop over the ids, `i` the index of the first one: the first
failing item aborts the run; a kept id is appended to the result. -/
def arxivLoop (env : AEnv) : List String → Nat → Except String (List String)
  | [], _ => .ok []
  | pid :: rest, i =>
    match arxivItem env i with
    | .error e => .error e
    | .ok b => (arxivLoop env rest (i + 1)).map fun l => if b then pid :: l else l

/-- PaperOfTheDayWorkflow (arxiv/workflow.go lines 20-133): id discovery first
— its failure aborts the run — then the loop over the ids in order. -/
def PaperOfTheDayWorkflow (env : AEnv) : Except String (List String) :=
  match env.ids with
  | .error e => .error ("failed to get arxiv ids: " ++ e)
  | .ok ids => arxivLoop env ids 0

/-- A declared (exported, json-tagged) field of a Go struct type, with the
comma-separated option list of its jsonschema tag. -/
structure GoField where
  jsonName : String
  tags : List String
deriving DecidableEq, Repr

/-- The required-set computation of the invopop/jsonschema Reflector with
RequiredFromJSONSchemaTags = true (as constructed by GenerateSchemaFromType):
a field is required exactly when its jsonschema tag contains the option
"required". -/
def reflectorRequired (fields : List GoField) : List String :=
  match fields with
  | [] => []
  | f :: rest =>
    if f.tags.contains "required" then f.jsonName :: reflectorRequired rest
    else reflectorRequired rest

/-- The required set produced by GenerateSchemaFromType in the llm revision
embedded in src/README.md — the revision the workflows' call sites match (two
return values; it also provides GenerateSchema, used by the arXiv workflow).
The reflector runs with RequiredFromJSONSchemaTags = true; afterwards, if the
marshalled schema has properties but no "required" key (invopop omits an empty
required list), every property name is added: "By default, make all fields
required unless explicitly marked as optional".  Only the required-set
computation is modelled; the fallback iterates a Go map, so its order is
irrelevant and the list is read as a set. -/
def generateSchemaRequired (fields : List GoField) : List String :=
  let req := reflectorRequired fields
  if fields.isEmpty then req
  else if req.isEmpty then fields.map fun f => f.jsonName
  else req

/-- JSON-Schema "required" validation of a reply: the reply must be an object
and every required name must appear among its keys (exact match — JSON Schema
keys are case-sensitive). -/
def checkRequired (req : List String) : Json → Bool
  | .obj fields => req.all fun r => (fields.map Prod.fst).contains r
  | _ => false

/-- An exact model of a Go float64 value as a fraction (finite float64 values
are rationals; every value appearing in this development is exactly
representable). -/
structure GoFloat where
  num : Int
  den : Int
deriving DecidableEq, Repr

/-- Go's conversion of a float64 to an integer type truncates toward zero;
this models `time.Duration(mins)` in bls.go line 226. -/
def goTrunc (f : GoFloat) : Int := f.num.tdiv f.den

/-- A calendar event as pkg/bls sees it: a summary and an optional start time
(UnixNano; `none` models a nil *time.Time). -/
structure Event where
  summary : String
  start : Option Int
deriving DecidableEq, Repr

/-- Nanoseconds per minute (time.Minute). -/
def nsPerMinute : Int := 60000000000

/-- FindEvents (bls.go lines 218-236) applied to the collaborator GetAllEvents
result and the current wall clock `now` (UnixNano): it keeps, in order, the
events whose Start is non-nil, strictly after the cutoff
`now - time.Duration(mins)*time.Minute`, and strictly before `now`.  The
float64 `mins` is truncated toward zero by the Duration conversion. -/
def FindEvents (mins : GoFloat) (now : Int) (allEvents : List Event) : List Event :=
  match allEvents with
  | [] => []
  | e :: rest =>
    match e.start with
    | some s =>
      if now - goTrunc mins * nsPerMinute < s ∧ s < now then e :: FindEvents mins now rest
      else FindEvents mins now rest
    | none => FindEvents mins now rest

/-- First index at which `pat` occurs in a character list (models
strings.Index; the separator searched for is ASCII, so byte indices of
occurrences coincide with character indices). -/
def indexOfSub (pat : List Char) : List Char → Option Nat
  | [] => if pat.isPrefixOf ([] : List Char) then some 0 else none
  | c :: rest =>
    if pat.isPrefixOf (c :: rest) then some 0
    else (indexOfSub pat rest).map (· + 1)

/-- The separator BLS releases put between summary and boilerplate. -/
def separator : String := "__________"

/-- ExtractSummary (bls.go lines 295-312) on the parsed document, abstracted to
the list of texts of its pre elements (goquery's NewDocumentFromReader does not
fail on string input, Find("pre") selects the pre elements, and Text()
concatenates their texts): an error iff the document has no pre element,
otherwise the concatenated text, cut just before the first occurrence of the
separator when one is present. -/
def ExtractSummary (preTexts : List String) : Except String String :=
  if preTexts.length = 0 then .error "no <pre> tag found in document"
  else
    match indexOfSub separator.data (String.join preTexts).data with
    | some idx => .ok ⟨(String.join preTexts).data.take idx⟩
    | none => .ok (String.join preTexts)

/-- Durations of the activities of one BLS item, in seconds. -/
structure Durs where
  fetch : Nat → Nat
  extract : Nat → Nat
  llm : Nat → Nat
  post : Nat → Nat

/-- One timed iteration of the BLS loop (workflow.go lines 60-177): the
5-second timer is created when the iteration starts (line 64) and awaited just
before posting (line 159) — also on the empty-tweet path; the failure paths
`continue` without awaiting it.  Returns the iteration's end time and, when the
item posts, the pair (ready, grant): when the code reached the timer wait and
when the post actually started. -/
def timedItem (env : Env) (d : Durs) (i : Nat) (t : Nat) : Nat × Option (Nat × Nat) :=
  match env.fetch i with
  | .error _ => (t + d.fetch i, none)
  | .ok html =>
    let t1 := t + d.fetch i
    match env.extract i html with
    | .error _ => (t1 + d.extract i, none)
    | .ok txt =>
      let t3 := t1 + d.extract i + d.llm i
      match tweetPath (env.llm i txt) with
      | none => (t3, none)
      | some none => (max t3 (t + 5), none)
      | some (some _) => (max t3 (t + 5) + d.post i, some (t3, max t3 (t + 5)))

/-- The timed BLS loop from start time `t`: final time and the (ready, grant)
pairs of the posts, in order. -/
def timedRun (env : Env) (d : Durs) : List Nat → Nat → Nat × List (Nat × Nat)
  | [], t => (t, [])
  | i :: rest, t =>
    let r := timedItem env d i t
    let rs := timedRun env d rest r.1
    (rs.1, match r.2 with | some pr => pr :: rs.2 | none => rs.2)

/-- Durations of the activities of one arXiv item, in seconds. -/
structure ADurs where
  abs : Nat → Nat
  llm : Nat → Nat

/-- Start times of the successive iterations of the arXiv loop
(arxiv/workflow.go lines 34-122): the 1-second timer is created when the
iteration starts (line 37) and awaited at its end (line 121); a failing item
aborts the run, producing no further iterations. -/
def arxivStarts (env : AEnv) (d : ADurs) : List Nat → Nat → List Nat
  | [], _ => []
  | i :: rest, t =>
    t ::
      match arxivItem env i with
      | .error _ => []
      | .ok _ => arxivStarts env d rest (max (t + d.abs i + d.llm i) (t + 1))

/-- The tweet an item contributes, computed without consulting the post stage:
because the workflow hardcodes forReal = false, posting never fails and every
accepted tweet is appended to the output. -/
def acceptedTweet (env : Env) (i : Nat) : Option String :=
  match env.fetch i with
  | .error _ => none
  | .ok html =>
    match env.extract i html with
    | .error _ => none
    | .ok txt => acceptTweet (env.llm i txt)

/-- A Twitter collaborator that always succeeds. -/
def cTwitter : TwitterEnv := ⟨none, fun _ => none⟩

/-- A run whose discovery collaborator errors. -/
def cEnvDiscErr : Env :=
  { discover := .error "x", fetch := fun _ => .ok "h", extract := fun _ _ => .ok "t",
    llm := fun _ _ => .ok none, twitter := cTwitter, tweetForReal := false }

/-- A run whose discovery returns zero events. -/
def cEnvEmpty : Env := { cEnvDiscErr with discover := .ok [] }

/-- A reply holding one tweet field. -/
def tweetJson (t : String) : Json := Json.obj [("tweet", Json.str t)]

/-- Scenario A: three events, the second one's fetch fails, the others yield
valid tweets. -/
def cEnvScenA : Env :=
  { discover := .ok ["e0", "e1", "e2"],
    fetch := fun i => if i = 1 then .error "boom" else .ok "h",
    extract := fun _ _ => .ok "t",
    llm := fun i _ => .ok (some (tweetJson (if i = 0 then "t0" else "t2"))),
    twitter := cTwitter, tweetForReal := false }

/-- Scenario A for the arXiv run: three ids, the second one's abstract fetch
fails, every reply keeps its paper. -/
def cAEnvScenA : AEnv :=
  { ids := .ok ["a1", "a2", "a3"],
    abs := fun i => if i = 1 then .error "boom" else .ok "text",
    llm := fun _ => .ok (some (Json.obj [("keep", Json.bool true)])) }

/-- A successful arXiv run keeping only the first of two papers. -/
def cAEnvOk : AEnv :=
  { ids := .ok ["a1", "a2"],
    abs := fun _ => .ok "t",
    llm := fun i => .ok (some (Json.obj [("keep", Json.bool (i = 0))])) }

/-- Whether a reply validates against the contract generated for TweetResponse
(required ["tweet"]; property tweet: a string with minLength 1, maxLength 280;
JSON-Schema validation matches keys exactly — JSON keys are case-sensitive).
With duplicate keys the last binding is read. -/
def validTweetReply (j : Json) : Bool :=
  match j with
  | .obj fields =>
    match fields.reverse.find? (fun kv => kv.1 == "tweet") with
    | some (_, .str s) => decide (1 ≤ s.length) && decide (s.length ≤ 280)
    | some _ => false
    | none => false
  | _ => false

/-! ### Basic store and executor lemmas -/

theorem post_false (t : String) (tw : TwitterEnv) :
    PostTweetActivity t false tw = (.ok (), []) := rfl

theorem execOne_hit {st : Store} {k : Key} {r : StageRes} (op : Unit → StageRes × List Eff)
    (h : st k = some r) : execOne st k op = ⟨r, st, 0, []⟩ := by
  simp [execOne, h]

theorem execOne_miss {st : Store} {k : Key} (op : Unit → StageRes × List Eff)
    (h : st k = none) :
    execOne st k op = ⟨(op ()).1, updStore st k (op ()).1, 1, (op ()).2⟩ := by
  simp [execOne, h]

theorem updStore_self (st : Store) (k : Key) (r : StageRes) : updStore st k r k = some r := by
  simp [updStore]

theorem updStore_other (st : Store) (k : Key) (r : StageRes) {k2 : Key} (h : k2 ≠ k) :
    updStore st k r k2 = st k2 := by
  simp [updStore, h]

theorem writeStages_other (rid : String) (env : Env) (i : Nat) (ss : List Stage) (st : Store)
    {k : Key} (h : ∀ s ∈ ss, k ≠ (rid, i, s)) : writeStages rid env i st ss k = st k := by
  induction ss generalizing st with
  | nil => rfl
  | cons s rest ih =>
    rw [writeStages, ih _ fun s2 hs2 => h s2 (List.mem_cons_of_mem _ hs2),
      updStore_other _ _ _ (h s (List.mem_cons_self _ _))]

theorem writeStages_not_mem (rid : String) (env : Env) (i : Nat) (ss : List Stage) (st : Store)
    {s : Stage} (h : s ∉ ss) : writeStages rid env i st ss (rid, i, s) = st (rid, i, s) := by
  refine writeStages_other rid env i ss st fun s2 hs2 heq => h ?_
  have hss : s = s2 := congrArg (fun k : Key => k.2.2) heq
  rw [hss]
  exact hs2

theorem writeStages_mem (rid : String) (env : Env) (i : Nat) (ss : List Stage) (st : Store)
    (hnd : ss.Nodup) {s : Stage} (hs : s ∈ ss) :
    writeStages rid env i st ss (rid, i, s) = some (canonVal env i s) := by
  induction ss generalizing st with
  | nil => cases hs
  | cons s0 rest ih =>
    rcases List.mem_cons.mp hs with rfl | hmem
    · rw [writeStages, writeStages_not_mem rid env i rest _ (List.nodup_cons.mp hnd).1]
      exact updStore_self _ _ _
    · exact ih _ (List.nodup_cons.mp hnd).2 hmem

theorem consulted_subset (env : Env) (i : Nat) {s : Stage} (h : s ∈ consulted env i) :
    s ∈ itemStages := by
  cases s with
  | discover =>
    exfalso
    unfold consulted at h
    rcases hf : env.fetch i with e | html <;> simp only [hf] at h
    · simp at h
    · rcases hx : env.extract i html with e | txt <;> simp only [hx] at h
      · simp at h
      · rcases ha : acceptTweet (env.llm i txt) with _ | tw <;> simp only [ha] at h <;>
          simp at h
  | fetch => decide
  | extract => decide
  | llm => decide
  | post => decide

theorem consulted_nodup (env : Env) (i : Nat) : (consulted env i).Nodup := by
  unfold consulted
  rcases hf : env.fetch i with e | html <;> simp only [hf]
  · decide
  · rcases hx : env.extract i html with e | txt <;> simp only [hx]
    · decide
    · rcases ha : acceptTweet (env.llm i txt) with _ | tw <;> simp only [ha] <;> decide

theorem unwrapResp (x : Except String (Option Json)) : respOf (x.map SVal.resp) = x := by
  rcases x with e | r <;> rfl

theorem except_map_ok {ε α β : Type} (f : α → β) (v : α) :
    (Except.ok v : Except ε α).map f = .ok (f v) := rfl

theorem except_map_error {ε α β : Type} (f : α → β) (e : ε) :
    (Except.error e : Except ε α).map f = .error e := rfl

/-! ### One item: characterization of a first run and of a replay -/

theorem runItem_fresh (rid : String) (env : Env) (i : Nat) (st : Store)
    (h : ∀ s ∈ itemStages, st (rid, i, s) = none) :
    runItem rid env i st =
      ⟨itemOut env i, writeStages rid env i st (consulted env i),
        (consulted env i).length, []⟩ := by
  have hkf : st (rid, i, Stage.fetch) = none := h _ (by decide)
  have hkx : st (rid, i, Stage.extract) = none := h _ (by decide)
  have hkl : st (rid, i, Stage.llm) = none := h _ (by decide)
  have hkp : st (rid, i, Stage.post) = none := h _ (by decide)
  rcases hf : env.fetch i with e | html
  · simp [runItem, execOne, itemOut, consulted, writeStages, canonVal, except_map_ok, except_map_error, hf, hkf]
  · rcases hx : env.extract i html with e | txt
    · simp [runItem, execOne, itemOut, consulted, writeStages, canonVal, canonHtml,
        except_map_ok, except_map_error, hf, hx, hkf, hkx, updStore_self, updStore_other]
    · rcases ha : acceptTweet (env.llm i txt) with _ | tw
      · simp [runItem, execOne, itemOut, consulted, writeStages, canonVal, canonHtml,
          canonTxt, canonLlm, unwrapResp, except_map_ok, except_map_error, hf, hx, ha, hkf, hkx, hkl,
          updStore_self, updStore_other]
      · simp [runItem, execOne, itemOut, consulted, writeStages, canonVal, canonHtml,
          canonTxt, canonLlm, canonTweet, unwrapResp, post_false, except_map_ok, except_map_error, hf, hx, ha,
          hkf, hkx, hkl, hkp, updStore_self, updStore_other]

theorem fetch_mem_consulted (env : Env) (i : Nat) : Stage.fetch ∈ consulted env i := by
  unfold consulted
  rcases hf : env.fetch i with e | html <;> simp only [hf]
  · simp
  · rcases hx : env.extract i html with e | txt <;> simp only [hx]
    · simp
    · rcases ha : acceptTweet (env.llm i txt) with _ | tw <;> simp only [ha] <;> simp

theorem extract_mem_consulted (env : Env) (i : Nat) {html : String}
    (hf : env.fetch i = .ok html) : Stage.extract ∈ consulted env i := by
  unfold consulted
  simp only [hf]
  rcases hx : env.extract i html with e | txt <;> simp only [hx]
  · simp
  · rcases ha : acceptTweet (env.llm i txt) with _ | tw <;> simp only [ha] <;> simp

theorem llm_mem_consulted (env : Env) (i : Nat) {html txt : String}
    (hf : env.fetch i = .ok html) (hx : env.extract i html = .ok txt) :
    Stage.llm ∈ consulted env i := by
  unfold consulted
  simp only [hf, hx]
  rcases ha : acceptTweet (env.llm i txt) with _ | tw <;> simp only [ha] <;> simp

theorem runItem_replay (rid : String) (env : Env) (i : Nat) (st : Store)
    (h : ∀ s ∈ consulted env i, st (rid, i, s) = some (canonVal env i s)) :
    runItem rid env i st = ⟨itemOut env i, st, 0, []⟩ := by
  rcases hf : env.fetch i with e | html
  · have hkf : st (rid, i, Stage.fetch) = some (.error e) := by
      have := h Stage.fetch (by simp [consulted, hf])
      simpa [canonVal, hf, except_map_error] using this
    simp [runItem, execOne, itemOut, hf, hkf]
  · have hkf : st (rid, i, Stage.fetch) = some (.ok (.str html)) := by
      have := h Stage.fetch (fetch_mem_consulted env i)
      simpa [canonVal, hf, except_map_ok] using this
    rcases hx : env.extract i html with e | txt
    · have hkx : st (rid, i, Stage.extract) = some (.error e) := by
        have := h Stage.extract (extract_mem_consulted env i hf)
        simpa [canonVal, canonHtml, hf, hx, except_map_error] using this
      simp [runItem, execOne, itemOut, hf, hx, hkf, hkx]
    · have hkx : st (rid, i, Stage.extract) = some (.ok (.str txt)) := by
        have := h Stage.extract (extract_mem_consulted env i hf)
        simpa [canonVal, canonHtml, hf, hx, except_map_ok] using this
      rcases ha : acceptTweet (env.llm i txt) with _ | tw
      · have hkl : st (rid, i, Stage.llm) = some ((env.llm i txt).map .resp) := by
          have := h Stage.llm (llm_mem_consulted env i hf hx)
          simpa [canonVal, canonLlm, canonTxt, canonHtml, hf, hx] using this
        simp [runItem, execOne, itemOut, unwrapResp, hf, hx, ha, hkf, hkx, hkl]
      · have hkl : st (rid, i, Stage.llm) = some ((env.llm i txt).map .resp) := by
          have := h Stage.llm (llm_mem_consulted env i hf hx)
          simpa [canonVal, canonLlm, canonTxt, canonHtml, hf, hx] using this
        have hkp : st (rid, i, Stage.post) = some (.ok .unit) := by
          have := h Stage.post (by simp [consulted, hf, hx, ha])
          simpa [canonVal, post_false, except_map_ok, canonTweet, canonLlm, canonTxt,
            canonHtml, hf, hx] using this
        simp [runItem, execOne, itemOut, unwrapResp, post_false, hf, hx, ha,
          hkf, hkx, hkl, hkp]

/-! ### The loop over all items -/

theorem key_ne_of_idx_ne {rid : String} {i j : Nat} {s s2 : Stage} (hij : j ≠ i) :
    ((rid, j, s2) : Key) ≠ (rid, i, s) := by
  intro heq
  exact hij (congrArg (fun k : Key => k.2.1) heq)

theorem runItems_fresh (rid : String) (env : Env) (idxs : List Nat) (st : Store)
    (hnd : idxs.Nodup)
    (hfresh : ∀ i ∈ idxs, ∀ s ∈ itemStages, st (rid, i, s) = none) :
    (runItems rid env idxs st).res = idxs.filterMap (itemOut env) ∧
    (runItems rid env idxs st).effs = [] ∧
    (∀ k r, st k = some r → (runItems rid env idxs st).store k = some r) ∧
    (∀ i ∈ idxs, ∀ s ∈ consulted env i,
      (runItems rid env idxs st).store (rid, i, s) = some (canonVal env i s)) := by
  induction idxs generalizing st with
  | nil => exact ⟨rfl, rfl, fun k r hk => hk, fun i hi => absurd hi (List.not_mem_nil _)⟩
  | cons i rest ih =>
    have hi0 : i ∈ i :: rest := List.mem_cons_self _ _
    have hnotin : i ∉ rest := (List.nodup_cons.mp hnd).1
    have hR := runItem_fresh rid env i st (hfresh i hi0)
    have hfresh1 : ∀ j ∈ rest, ∀ s ∈ itemStages,
        writeStages rid env i st (consulted env i) (rid, j, s) = none := by
      intro j hj s hs
      have hji : j ≠ i := fun heq => hnotin (heq ▸ hj)
      rw [writeStages_other rid env i _ st fun s2 _ => key_ne_of_idx_ne hji]
      exact hfresh j (List.mem_cons_of_mem _ hj) s hs
    obtain ⟨ih1, ih2, ih3, ih4⟩ :=
      ih (writeStages rid env i st (consulted env i)) (List.nodup_cons.mp hnd).2 hfresh1
    have hst1 : ∀ k r, st k = some r →
        writeStages rid env i st (consulted env i) k = some r := by
      intro k r hk
      rw [writeStages_other rid env i _ st]
      · exact hk
      · intro s hs heq
        rw [heq] at hk
        rw [hfresh i hi0 s (consulted_subset env i hs)] at hk
        cases hk
    refine ⟨?_, ?_, ?_, ?_⟩
    · simp only [runItems, hR, ih1]
      rcases ho : itemOut env i with _ | t <;> simp [ho, List.filterMap_cons]
    · simp only [runItems, hR, ih2, List.append_nil]
    · intro k r hk
      simp only [runItems, hR]
      exact ih3 k r (hst1 k r hk)
    · intro j hj s hs
      simp only [runItems, hR]
      rcases List.mem_cons.mp hj with rfl | hmem
      · exact ih3 _ _ (writeStages_mem rid env j (consulted env j) st (consulted_nodup env j) hs)
      · exact ih4 j hmem s hs

theorem runItems_replay (rid : String) (env : Env) (idxs : List Nat) (st : Store)
    (h : ∀ i ∈ idxs, ∀ s ∈ consulted env i, st (rid, i, s) = some (canonVal env i s)) :
    runItems rid env idxs st = ⟨idxs.filterMap (itemOut env), st, 0, []⟩ := by
  induction idxs with
  | nil => rfl
  | cons i rest ih =>
    have hR := runItem_replay rid env i st (h i (List.mem_cons_self _ _))
    have hRs := ih fun j hj => h j (List.mem_cons_of_mem _ hj)
    simp only [runItems, hR, hRs]
    rcases ho : itemOut env i with _ | t <;> simp [ho, List.filterMap_cons]

/-! ### The whole run: first execution and replay -/

theorem runBLS_disc_error (rid : String) (env : Env) (e : String)
    (hd : env.discover = .error e) :
    runBLS rid env emptyStore =
      ⟨.error ("failed to find events: " ++ e),
        updStore emptyStore (rid, 0, Stage.discover) (.error e), 1, []⟩ := by
  simp [runBLS, execOne, emptyStore, hd, except_map_error]

theorem discover_upd_fresh (rid : String) (evs : List String) :
    ∀ i ∈ List.range evs.length, ∀ s ∈ itemStages,
      updStore emptyStore (rid, 0, Stage.discover) (.ok (.events evs)) (rid, i, s) = none := by
  intro i _ s hs
  rw [updStore_other]
  · rfl
  · intro heq
    have hss : s = Stage.discover := congrArg (fun k : Key => k.2.2) heq
    rw [hss] at hs
    simp [itemStages] at hs

theorem runBLS_disc_ok (rid : String) (env : Env) (evs : List String)
    (hd : env.discover = .ok evs) :
    runBLS rid env emptyStore =
      ⟨.ok ((List.range evs.length).filterMap (itemOut env)),
        (runItems rid env (List.range evs.length)
          (updStore emptyStore (rid, 0, Stage.discover) (.ok (.events evs)))).store,
        1 + (runItems rid env (List.range evs.length)
          (updStore emptyStore (rid, 0, Stage.discover) (.ok (.events evs)))).calls,
        []⟩ := by
  obtain ⟨h1, h2, h3, h4⟩ :=
    runItems_fresh rid env (List.range evs.length) _ (List.nodup_range _)
      (discover_upd_fresh rid evs)
  simp [runBLS, execOne, emptyStore, hd, except_map_ok, h1, h2]

/-- C1.  Replaying a run from its persisted StageRecords yields the same Output
list as the uninterrupted original run — the whole result of the replay is the
original's, its store unchanged — with zero additional invocations of the
already-recorded stage operations (and no external effects): the executor
consults the StageRecord keyed by (runID, itemKey, stageName) before invoking
any operation and, finding one, returns its stored result without re-invoking
the operation. -/
theorem c1_replay_idempotent (rid : String) (env : Env) :
    runBLS rid env (runBLS rid env emptyStore).store =
      ⟨(runBLS rid env emptyStore).res, (runBLS rid env emptyStore).store, 0, []⟩ := by
  rcases hd : env.discover with e | evs
  · rw [runBLS_disc_error rid env e hd]
    simp [runBLS, execOne, updStore_self]
  · obtain ⟨h1, h2, h3, h4⟩ :=
      runItems_fresh rid env (List.range evs.length) _ (List.nodup_range _)
        (discover_upd_fresh rid evs)
    rw [runBLS_disc_ok rid env evs hd]
    have hdisc :
        (runItems rid env (List.range evs.length)
          (updStore emptyStore (rid, 0, Stage.discover) (.ok (.events evs)))).store
          (rid, 0, Stage.discover) = some (.ok (.events evs)) :=
      h3 _ _ (updStore_self _ _ _)
    have hrep := runItems_replay rid env (List.range evs.length) _ h4
    simp [runBLS, execOne, hdisc, hrep]

/-! ### Supporting lemmas for the error-handling and ordering claims -/

theorem itemOut_none_of_fetch_error (env : Env) (j : Nat) (e : String)
    (hf : env.fetch j = .error e) : itemOut env j = none := by
  simp [itemOut, hf]

theorem filterMap_skip (f : Nat → Option String) (j : Nat) (hj : f j = none) :
    ∀ l : List Nat, l.filterMap f = (l.filter fun i => i ≠ j).filterMap f := by
  intro l
  induction l with
  | nil => rfl
  | cons a t ih =>
    by_cases ha : a = j
    · subst ha
      simp [List.filterMap_cons, List.filter_cons, hj, ih]
    · simp [List.filterMap_cons, List.filter_cons, ha, ih]

theorem arxivLoop_abort (env : AEnv) (m : String) (jj : Nat)
    (hj : arxivItem env jj = .error m) :
    ∀ (ids : List String) (i : Nat), i ≤ jj → jj < ids.length + i →
      (∀ i2, i ≤ i2 → i2 < jj → ∃ b, arxivItem env i2 = .ok b) →
      arxivLoop env ids i = .error m := by
  intro ids
  induction ids with
  | nil =>
    intro i hle hlt _
    simp at hlt
    omega
  | cons pid rest ih =>
    intro i hle hlt hpre
    rcases Nat.eq_or_lt_of_le hle with rfl | hlt2
    · simp [arxivLoop, hj]
    · obtain ⟨b, hb⟩ := hpre i (le_refl i) hlt2
      have hlt3 : jj < rest.length + (i + 1) := by
        simp at hlt
        omega
      have hrec := ih (i + 1) hlt2 hlt3 fun i2 h1 h2 => hpre i2 (le_of_lt h1) h2
      simp [arxivLoop, hb, hrec, except_map_error]

theorem arxivLoop_sublist (env : AEnv) :
    ∀ (ids : List String) (i : Nat) (l : List String),
      arxivLoop env ids i = .ok l → l.Sublist ids := by
  intro ids
  induction ids with
  | nil =>
    intro i l h
    cases h
    exact List.Sublist.refl _
  | cons pid rest ih =>
    intro i l h
    rw [arxivLoop] at h
    rcases hit : arxivItem env i with e | b <;> rw [hit] at h
    · cases h
    · rcases hrec : arxivLoop env rest (i + 1) with e2 | l0 <;> rw [hrec] at h
      · cases h
      · have hl : l = if b then pid :: l0 else l0 := by
          cases h
          rfl
        have hsub := ih (i + 1) l0 hrec
        rcases b with _ | _
        · rw [hl]
          simpa using hsub.trans (List.sublist_cons_self pid rest)
        · rw [hl]
          simpa using hsub.cons₂ pid

/-! ### Claims C2, C3, C6, C8 -/

/-- C3.  The BLS entry point returns an error iff the discovery step fails:
a discovery error aborts the run as "failed to find events" with no output
list, exactly one invocation (discovery itself, so no item is processed) and
no external effect; successful discovery — zero items included — always yields
an `.ok` output list, for zero events the empty one. -/
theorem c3_error_iff_discovery_fails (rid : String) (env : Env) :
    (∀ e, env.discover = .error e →
      (runBLS rid env emptyStore).res = .error ("failed to find events: " ++ e) ∧
      (runBLS rid env emptyStore).calls = 1 ∧
      (runBLS rid env emptyStore).effs = []) ∧
    (∀ evs, env.discover = .ok evs →
      (runBLS rid env emptyStore).res =
        .ok ((List.range evs.length).filterMap (itemOut env))) := by
  constructor
  · intro e hd
    rw [runBLS_disc_error rid env e hd]
    exact ⟨rfl, rfl, rfl⟩
  · intro evs hd
    rw [runBLS_disc_ok rid env evs hd]

theorem c3_error_iff_discovery_fails_witness :
    (runBLS "r" cEnvDiscErr emptyStore).res = .error ("failed to find events: " ++ "x") ∧
    (runBLS "r" cEnvDiscErr emptyStore).calls = 1 ∧
    (runBLS "r" cEnvDiscErr emptyStore).effs = [] ∧
    (runBLS "r" cEnvEmpty emptyStore).res = .ok [] := by
  have h1 := (c3_error_iff_discovery_fails "r" cEnvDiscErr).1 "x" rfl
  have h2 := (c3_error_iff_discovery_fails "r" cEnvEmpty).2 [] rfl
  exact ⟨h1.1, h1.2.1, h1.2.2, h2⟩

/-- C2 counterexample.  In the arXiv workflow, discovery returns three ids and
the second item's fetch stage fails: the run aborts with that error — the
result does not contain the outputs of items 1 and 3. -/
theorem c2_counterexample :
    PaperOfTheDayWorkflow cAEnvScenA = .error ("failed to get arxiv abstract: " ++ "boom") ∧
    PaperOfTheDayWorkflow cAEnvScenA ≠ .ok ["a1", "a3"] :=
  ⟨rfl, fun h => nomatch h⟩

/-- C2 amended.  In the BLS workflow an item whose fetch stage fails is the
only one skipped: the run still succeeds and returns the outputs of all other
items in discovery order.  In the arXiv workflow, by contrast, the first item
whose fetch (abstract) stage fails aborts the whole run with an error. -/
theorem c2_fetch_failure_isolation (rid : String) (env : Env) (evs : List String) (j : Nat)
    (e : String) (hd : env.discover = .ok evs) (hf : env.fetch j = .error e) :
    (runBLS rid env emptyStore).res =
      .ok (((List.range evs.length).filter fun i => i ≠ j).filterMap (itemOut env)) ∧
    (∀ (aenv : AEnv) (ids : List String) (jj : Nat) (e2 : String),
      aenv.ids = .ok ids → jj < ids.length →
      (∀ i2 < jj, ∃ b, arxivItem aenv i2 = .ok b) →
      aenv.abs jj = .error e2 →
      PaperOfTheDayWorkflow aenv = .error ("failed to get arxiv abstract: " ++ e2)) := by
  constructor
  · rw [runBLS_disc_ok rid env evs hd]
    exact congrArg Except.ok
      (filterMap_skip (itemOut env) j (itemOut_none_of_fetch_error env j e hf)
        (List.range evs.length))
  · intro aenv ids jj e2 hids hjj hpre habs
    have hjitem : arxivItem aenv jj = .error ("failed to get arxiv abstract: " ++ e2) := by
      simp [arxivItem, habs]
    have habort := arxivLoop_abort aenv _ jj hjitem ids 0 (Nat.zero_le _)
      (by simpa using hjj) fun i2 _ h2 => hpre i2 h2
    simp [PaperOfTheDayWorkflow, hids, habort]

theorem c2_fetch_failure_isolation_witness :
    (runBLS "r" cEnvScenA emptyStore).res = .ok ["t0", "t2"] ∧
    PaperOfTheDayWorkflow cAEnvScenA = .error ("failed to get arxiv abstract: " ++ "boom") := by
  have h := c2_fetch_failure_isolation "r" cEnvScenA ["e0", "e1", "e2"] 1 "boom" rfl rfl
  constructor
  · rw [h.1]
    rfl
  · exact h.2 cAEnvScenA ["a1", "a2", "a3"] 1 "boom" rfl (by decide)
      (fun i2 h2 => ⟨true, by
        have hz : i2 = 0 := by omega
        rw [hz]
        rfl⟩) rfl

theorem filterMap_pair_snd (f : Nat → Option String) :
    ∀ l : List Nat,
      (l.filterMap fun i => (f i).map fun t => (i, t)).map Prod.snd = l.filterMap f := by
  intro l
  induction l with
  | nil => rfl
  | cons a t ih => rcases hf : f a with _ | v <;> simp [List.filterMap_cons, hf, ih]

theorem filterMap_pair_fst (f : Nat → Option String) :
    ∀ l : List Nat,
      (l.filterMap fun i => (f i).map fun t => (i, t)).map Prod.fst =
        l.filter fun i => (f i).isSome := by
  intro l
  induction l with
  | nil => rfl
  | cons a t ih =>
    rcases hf : f a with _ | v <;> simp [List.filterMap_cons, List.filter_cons, hf, ih]

/-- C6.  The returned Output list is an order-preserving selection of the
discovered items' results: it is the second projection of the published
(index, tweet) pairs, whose indices are exactly the items that reached
Published, listed in discovery order; its length is at most the number of
discovered items.  In the arXiv workflow a successful run's result is a
sublist of the discovered ids. -/
theorem c6_outputs_ordered_selection (rid : String) (env : Env) (evs : List String)
    (hd : env.discover = .ok evs) :
    (runBLS rid env emptyStore).res =
      .ok (((List.range evs.length).filterMap fun i => (itemOut env i).map fun t => (i, t)).map
        Prod.snd) ∧
    ((List.range evs.length).filterMap fun i => (itemOut env i).map fun t => (i, t)).map
        Prod.fst = (List.range evs.length).filter (fun i => (itemOut env i).isSome) ∧
    (((List.range evs.length).filterMap fun i => (itemOut env i).map fun t => (i, t)).map
        Prod.snd).length ≤ evs.length ∧
    (∀ (aenv : AEnv) (ids l : List String),
      aenv.ids = .ok ids → PaperOfTheDayWorkflow aenv = .ok l → l.Sublist ids) := by
  refine ⟨?_, filterMap_pair_fst _ _, ?_, ?_⟩
  · rw [runBLS_disc_ok rid env evs hd, filterMap_pair_snd]
  · rw [filterMap_pair_snd]
    calc ((List.range evs.length).filterMap (itemOut env)).length
        ≤ (List.range evs.length).length := List.length_filterMap_le _ _
      _ = evs.length := List.length_range _
  · intro aenv ids l hids hrun
    have hloop : arxivLoop aenv ids 0 = .ok l := by
      simpa [PaperOfTheDayWorkflow, hids] using hrun
    exact arxivLoop_sublist aenv ids 0 l hloop

theorem c6_outputs_ordered_selection_witness :
    (runBLS "r" cEnvScenA emptyStore).res = .ok ["t0", "t2"] ∧
    ((List.range 3).filterMap fun i => (itemOut cEnvScenA i).map fun t => (i, t)).map
        Prod.fst = (List.range 3).filter (fun i => (itemOut cEnvScenA i).isSome) ∧
    (["t0", "t2"] : List String).length ≤ 3 ∧
    (["a1"] : List String).Sublist ["a1", "a2"] := by
  have h := c6_outputs_ordered_selection "r" cEnvScenA ["e0", "e1", "e2"] rfl
  refine ⟨?_, h.2.1, by decide, ?_⟩
  · rw [h.1]
    rfl
  · exact h.2.2.2 cAEnvOk ["a1", "a2"] ["a1"] rfl rfl

theorem itemOut_no_post (env : Env) (i : Nat) : itemOut env i = acceptedTweet env i := by
  unfold itemOut acceptedTweet
  rcases hf : env.fetch i with e | html
  · simp [hf]
  · rcases hx : env.extract i html with e | txt
    · simp [hf, hx]
    · rcases ha : acceptTweet (env.llm i txt) with _ | tw <;> simp [hf, hx, ha, post_false]

theorem runItem_tweetForReal (rid : String) (env : Env) (b : Bool) (i : Nat) (st : Store) :
    runItem rid { env with tweetForReal := b } i st = runItem rid env i st := rfl

theorem runItems_tweetForReal (rid : String) (env : Env) (b : Bool) (idxs : List Nat) :
    ∀ st, runItems rid { env with tweetForReal := b } idxs st = runItems rid env idxs st := by
  induction idxs with
  | nil =>
    intro st
    rfl
  | cons i rest ih =>
    intro st
    simp only [runItems, runItem_tweetForReal, ih]

theorem runBLS_tweetForReal (rid : String) (env : Env) (b : Bool) (st : Store) :
    runBLS rid { env with tweetForReal := b } st = runBLS rid env st := by
  simp only [runBLS, runItems_tweetForReal]

/-- C8.  PostTweetActivity with forReal = false returns nil immediately,
creating no Twitter client and performing no network call; the workflow invokes
it with forReal hardcoded to false, so a run has no external effects and its
result is independent of params.TweetForReal; yet every accepted tweet is
still appended to the returned output list as a success. -/
theorem c8_forreal_hardcoded_false (rid : String) (env : Env) (b : Bool) (t : String)
    (tw : TwitterEnv) :
    PostTweetActivity t false tw = (.ok (), []) ∧
    (runBLS rid env emptyStore).effs = [] ∧
    runBLS rid { env with tweetForReal := b } emptyStore = runBLS rid env emptyStore ∧
    (runBLS rid env emptyStore).res =
      (match env.discover with
        | .error e => .error ("failed to find events: " ++ e)
        | .ok evs => .ok ((List.range evs.length).filterMap (acceptedTweet env))) := by
  refine ⟨rfl, ?_, runBLS_tweetForReal rid env b emptyStore, ?_⟩
  · rcases hd : env.discover with e | evs
    · rw [runBLS_disc_error rid env e hd]
    · rw [runBLS_disc_ok rid env evs hd]
  · rcases hd : env.discover with e | evs
    · rw [runBLS_disc_error rid env e hd]
    · rw [runBLS_disc_ok rid env evs hd]
      have hio : itemOut env = acceptedTweet env := funext (itemOut_no_post env)
      rw [hio]

/-! ### Claim C4: schema-constrained generation -/

theorem length_le_utf8Len : ∀ l : List Char, l.length ≤ utf8Len l := by
  intro l
  induction l with
  | nil => simp [utf8Len]
  | cons c cs ih =>
    rw [utf8Len, List.length_cons]
    have hc : 1 ≤ c.utf8Size := Char.utf8Size_pos c
    omega

theorem strLen_le_goLen (s : String) : s.length ≤ goLen s := length_le_utf8Len s.data

theorem one_le_length_of_ne_empty (t : String) (h : t ≠ "") : 1 ≤ t.length := by
  rcases t with ⟨l⟩
  cases l with
  | nil => exact absurd rfl h
  | cons c cs => simp [String.length]

theorem stringFieldStep_cases (v : Json) (acc acc2 : String)
    (h : stringFieldStep v acc = some acc2) : acc2 = acc ∨ v = Json.str acc2 := by
  rcases v with _ | b | n | s | el | fl
  · exact Or.inl (Option.some.inj h).symm
  · exact absurd h (by simp [stringFieldStep])
  · exact absurd h (by simp [stringFieldStep])
  · exact Or.inr (by rw [Option.some.inj h])
  · exact absurd h (by simp [stringFieldStep])
  · exact absurd h (by simp [stringFieldStep])

theorem decodeTweetFields_origin :
    ∀ (fs : List (String × Json)) (acc t : String), decodeTweetFields fs acc = .ok t →
      t = acc ∨ ∃ k, (k, Json.str t) ∈ fs ∧ eqFold k "tweet" = true := by
  intro fs
  induction fs with
  | nil =>
    intro acc t h
    cases h
    exact Or.inl rfl
  | cons kv rest ih =>
    intro acc t h
    rcases kv with ⟨k, v⟩
    rw [decodeTweetFields] at h
    by_cases hk : eqFold k "tweet" = true
    · rw [if_pos hk] at h
      rcases hstep : stringFieldStep v acc with _ | acc2 <;> rw [hstep] at h
      · cases h
      · rcases ih acc2 t h with rfl | ⟨k2, hmem, hk2⟩
        · rcases stringFieldStep_cases v acc t hstep with rfl | rfl
          · exact Or.inl rfl
          · exact Or.inr ⟨k, List.mem_cons_self _ _, hk⟩
        · exact Or.inr ⟨k2, List.mem_cons_of_mem _ hmem, hk2⟩
    · rw [if_neg hk] at h
      rcases ih acc t h with rfl | ⟨k2, hmem, hk2⟩
      · exact Or.inl rfl
      · exact Or.inr ⟨k2, List.mem_cons_of_mem _ hmem, hk2⟩

theorem acceptTweet_bounds (r : Except String (Option Json)) (t : String)
    (h : acceptTweet r = some t) : 1 ≤ t.length ∧ t.length ≤ 280 := by
  rcases r with e | mj
  · exact absurd h (by simp [acceptTweet, tweetPath])
  · rcases mj with _ | j
    · exact absurd h (by simp [acceptTweet, tweetPath])
    · rw [acceptTweet, tweetPath] at h
      rcases htj : tweetFromJson j with e | t0 <;> simp only [htj] at h
      · simp at h
      · by_cases h280 : 280 < goLen t0
        · rw [if_pos h280] at h
          simp at h
        · rw [if_neg h280] at h
          by_cases hemp : t0 = ""
          · rw [if_pos hemp] at h
            simp at h
          · rw [if_neg hemp] at h
            have ht : t0 = t := by
              simpa using h
            rw [← ht]
            constructor
            · exact one_le_length_of_ne_empty t0 hemp
            · have h1 := strLen_le_goLen t0
              omega

theorem acceptTweet_origin (j : Json) (t : String)
    (h : acceptTweet (.ok (some j)) = some t) :
    ∃ fields, j = .obj fields ∧ ∃ k, (k, Json.str t) ∈ fields ∧ eqFold k "tweet" = true := by
  rw [acceptTweet, tweetPath] at h
  rcases htj : tweetFromJson j with e | t0 <;> simp only [htj] at h
  · simp at h
  · by_cases h280 : 280 < goLen t0
    · rw [if_pos h280] at h
      simp at h
    · rw [if_neg h280] at h
      by_cases hemp : t0 = ""
      · rw [if_pos hemp] at h
        simp at h
      · rw [if_neg hemp] at h
        have ht : t0 = t := by
          simpa using h
        rw [← ht]
        rcases j with _ | b | n | s | el | fl <;> simp only [tweetFromJson] at htj
        · cases htj
          exact absurd rfl hemp
        · exact Except.noConfusion htj
        · exact Except.noConfusion htj
        · exact Except.noConfusion htj
        · exact Except.noConfusion htj
        · refine ⟨fl, rfl, ?_⟩
          rcases decodeTweetFields_origin fl "" t0 htj with rfl | hex
          · exact absurd rfl hemp
          · exact hex

theorem acceptTweet_rejects_long (j : Json) (t0 : String)
    (htj : tweetFromJson j = .ok t0) (hlen : 280 < t0.length) :
    acceptTweet (.ok (some j)) = none := by
  have hg : 280 < goLen t0 := lt_of_lt_of_le hlen (strLen_le_goLen t0)
  simp [acceptTweet, tweetPath, htj, hg]

/-- C4 amended.  The generation step accepts a reply (producing an Output) only
if the reply parses as a JSON object carrying the tweet as a string field —
matched by Go's rule, which also accepts a case-insensitive key — whose value
satisfies the declared constraints: length between 1 and 280 (the byte check
`len > 280` is at least as strict as the character bound); in particular a
tweet longer than 280 characters is rejected, and every Output the pipeline
produces satisfies the length constraints.  However, the required field may be
matched only case-insensitively, so acceptance does not imply validity against
the case-sensitive contract (see the counterexample). -/
theorem c4_accepted_reply_constraints (j : Json) (t : String) :
    (acceptTweet (.ok (some j)) = some t →
      (∃ fields, j = .obj fields ∧ ∃ k, (k, Json.str t) ∈ fields ∧ eqFold k "tweet" = true) ∧
      1 ≤ t.length ∧ t.length ≤ 280) ∧
    (tweetFromJson j = .ok t → 280 < t.length → acceptTweet (.ok (some j)) = none) ∧
    (∀ env i, itemOut env i = some t → 1 ≤ t.length ∧ t.length ≤ 280) := by
  refine ⟨fun h => ⟨acceptTweet_origin j t h, acceptTweet_bounds _ t h⟩,
    fun htj hlen => acceptTweet_rejects_long j t htj hlen, ?_⟩
  intro env i h
  unfold itemOut at h
  rcases hf : env.fetch i with e | html
  · simp [hf] at h
  · rcases hx : env.extract i html with e | txt
    · simp [hf, hx] at h
    · rcases ha : acceptTweet (env.llm i txt) with _ | tw
      · simp [hf, hx, ha] at h
      · have hb := acceptTweet_bounds (env.llm i txt) tw ha
        have htw : tw = t := by
          simp [hf, hx, ha, post_false] at h
          exact h
        rw [← htw]
        exact hb

/-- C4 counterexample.  Go's Unmarshal matches struct fields case-insensitively
when no exact key matches: the reply {"Tweet":"x"} is accepted and produces an
Output even though it does not validate against the contract in force, whose
required field "tweet" (JSON-Schema keys are case-sensitive) is absent. -/
theorem c4_counterexample :
    acceptTweet (.ok (some (Json.obj [("Tweet", Json.str "x")]))) = some "x" ∧
    validTweetReply (Json.obj [("Tweet", Json.str "x")]) = false :=
  ⟨rfl, rfl⟩

theorem c4_accepted_reply_constraints_witness :
    (1 ≤ ("x" : String).length ∧ ("x" : String).length ≤ 280) ∧
    acceptTweet (.ok (some (Json.obj [("tweet",
      Json.str (String.mk (List.replicate 281 'a')))]))) = none := by
  refine ⟨((c4_accepted_reply_constraints (tweetJson "x") "x").1 rfl).2, ?_⟩
  refine (c4_accepted_reply_constraints
    (Json.obj [("tweet", Json.str (String.mk (List.replicate 281 'a')))])
    (String.mk (List.replicate 281 'a'))).2.1 rfl ?_
  have hlen : (String.mk (List.replicate 281 'a')).length = 281 := by
    have h1 : (String.mk (List.replicate 281 'a')).length = (List.replicate 281 'a').length := rfl
    rw [h1, List.length_replicate]
  rw [hlen]
  omega

/-! ### Claim C5: default-required strictness of the schema generator -/

theorem reflectorRequired_nil (fields : List GoField)
    (h : ∀ f ∈ fields, f.tags.contains "required" = false) :
    reflectorRequired fields = [] := by
  induction fields with
  | nil => rfl
  | cons f rest ih =>
    rw [reflectorRequired]
    rw [h f (List.mem_cons_self _ _)]
    exact ih fun f2 hf2 => h f2 (List.mem_cons_of_mem _ hf2)

/-- C5.  When a contract generated from a struct type carries no explicit
required markers in its jsonschema tags, GenerateSchemaFromType's fallback
marks every declared field required: the required set is exactly the declared
field names, required-validation rejects a reply missing any field (e.g. the
empty object) and accepts a reply carrying them all. -/
theorem c5_default_required (fields : List GoField)
    (h1 : ∀ f ∈ fields, f.tags.contains "required" = false) (h2 : fields ≠ []) :
    generateSchemaRequired fields = fields.map (fun f => f.jsonName) ∧
    (∀ f ∈ fields, f.jsonName ∈ generateSchemaRequired fields) ∧
    checkRequired (generateSchemaRequired fields) (Json.obj []) = false ∧
    checkRequired (generateSchemaRequired fields)
      (Json.obj (fields.map fun f => (f.jsonName, Json.str "x"))) = true := by
  have hrefl : reflectorRequired fields = [] := reflectorRequired_nil fields h1
  have hne : fields.isEmpty = false := by
    cases fields with
    | nil => exact absurd rfl h2
    | cons f rest => rfl
  have hgen : generateSchemaRequired fields = fields.map (fun f => f.jsonName) := by
    rw [generateSchemaRequired]
    rw [hrefl, hne]
    simp
  refine ⟨hgen, ?_, ?_, ?_⟩
  · intro f hf
    rw [hgen]
    exact List.mem_map_of_mem _ hf
  · rw [hgen]
    cases fields with
    | nil => exact absurd rfl h2
    | cons f rest => simp [checkRequired]
  · rw [hgen]
    simp only [checkRequired, List.all_eq_true]
    intro r hr
    simp only [List.map_map]
    simpa using hr

theorem c5_default_required_witness :
    generateSchemaRequired [⟨"tweet", []⟩] = ["tweet"] ∧
    "tweet" ∈ generateSchemaRequired [⟨"tweet", []⟩] ∧
    checkRequired (generateSchemaRequired [⟨"tweet", []⟩]) (Json.obj []) = false ∧
    checkRequired (generateSchemaRequired [⟨"tweet", []⟩])
      (Json.obj [("tweet", Json.str "x")]) = true := by
  have h := c5_default_required [⟨"tweet", []⟩] (by decide) (by decide)
  exact ⟨h.1, h.2.1 ⟨"tweet", []⟩ (by decide), h.2.2.1, h.2.2.2⟩

/-! ### Claim C7: rate limiting timers -/

theorem timedItem_start_le_end (env : Env) (d : Durs) (i : Nat) (t : Nat) :
    t ≤ (timedItem env d i t).1 := by
  unfold timedItem
  rcases hf : env.fetch i with e | html <;> simp only [hf]
  · omega
  · rcases hx : env.extract i html with e | txt <;> simp only [hx]
    · omega
    · rcases hp : tweetPath (env.llm i txt) with _ | mo
      · simp only [hp]
        omega
      · rcases mo with _ | tw <;> simp only [hp]
        · show t ≤ (t + d.fetch i + d.extract i + d.llm i) ⊔ (t + 5)
          omega
        · show t ≤ (t + d.fetch i + d.extract i + d.llm i) ⊔ (t + 5) + d.post i
          omega

theorem timedItem_post_spec (env : Env) (d : Durs) (i : Nat) (t : Nat) (p : Nat × Nat)
    (h : (timedItem env d i t).2 = some p) :
    t + 5 ≤ p.2 ∧ p.1 ≤ p.2 ∧ p.2 ≤ (timedItem env d i t).1 := by
  unfold timedItem at h ⊢
  rcases hf : env.fetch i with e | html <;> simp only [hf] at h ⊢
  · cases h
  · rcases hx : env.extract i html with e | txt <;> simp only [hx] at h ⊢
    · cases h
    · rcases hp : tweetPath (env.llm i txt) with _ | mo <;> simp only [hp] at h ⊢
      · cases h
      · rcases mo with _ | tw
        · cases h
        · cases h
          refine ⟨?_, ?_, ?_⟩ <;> simp

theorem timedRun_post_ge (env : Env) (d : Durs) :
    ∀ (idxs : List Nat) (t : Nat) (p : Nat × Nat),
      p ∈ (timedRun env d idxs t).2 → t + 5 ≤ p.2 ∧ p.1 ≤ p.2 := by
  intro idxs
  induction idxs with
  | nil =>
    intro t p hp
    simp [timedRun] at hp
  | cons i rest ih =>
    intro t p hp
    rw [timedRun] at hp
    rcases hq : (timedItem env d i t).2 with _ | pr <;> simp only [hq] at hp
    · have h1 := timedItem_start_le_end env d i t
      have h2 := ih (timedItem env d i t).1 p hp
      exact ⟨by omega, h2.2⟩
    · rcases List.mem_cons.mp hp with rfl | hmem
      · have hs := timedItem_post_spec env d i t p hq
        exact ⟨hs.1, hs.2.1⟩
      · have h1 := timedItem_start_le_end env d i t
        have h2 := ih (timedItem env d i t).1 p hmem
        exact ⟨by omega, h2.2⟩

theorem timedRun_chain (env : Env) (d : Durs) :
    ∀ (idxs : List Nat) (t : Nat),
      List.Chain' (fun p q : Nat × Nat => p.2 + 5 ≤ q.2) (timedRun env d idxs t).2 := by
  intro idxs
  induction idxs with
  | nil =>
    intro t
    simp [timedRun]
  | cons i rest ih =>
    intro t
    rw [timedRun]
    rcases hq : (timedItem env d i t).2 with _ | pr <;> simp only [hq]
    · exact ih _
    · rw [List.chain'_cons']
      constructor
      · intro q hq2
        have hqm : q ∈ (timedRun env d rest (timedItem env d i t).1).2 :=
          List.mem_of_mem_head? hq2
        have hge := (timedRun_post_ge env d rest _ q hqm).1
        have hsp := timedItem_post_spec env d i t pr hq
        omega
      · exact ih _

theorem arxivStarts_ge (aenv : AEnv) (ad : ADurs) :
    ∀ (idxs : List Nat) (t : Nat) (s : Nat), s ∈ arxivStarts aenv ad idxs t → t ≤ s := by
  intro idxs
  induction idxs with
  | nil =>
    intro t s hs
    simp [arxivStarts] at hs
  | cons i rest ih =>
    intro t s hs
    rw [arxivStarts] at hs
    rcases List.mem_cons.mp hs with rfl | hmem
    · exact le_refl s
    · rcases hit : arxivItem aenv i with e | b <;> rw [hit] at hmem
      · simp at hmem
      · have := ih _ s hmem
        omega

theorem arxivStarts_chain (aenv : AEnv) (ad : ADurs) :
    ∀ (idxs : List Nat) (t : Nat),
      List.Chain' (fun a b : Nat => a + 1 ≤ b) (arxivStarts aenv ad idxs t) := by
  intro idxs
  induction idxs with
  | nil =>
    intro t
    simp [arxivStarts]
  | cons i rest ih =>
    intro t
    rw [arxivStarts]
    rcases hit : arxivItem aenv i with e | b <;> simp only [hit]
    · simp
    · rw [List.chain'_cons']
      constructor
      · intro b2 hb2
        have hbm := List.mem_of_mem_head? hb2
        have := arxivStarts_ge aenv ad rest _ b2 hbm
        omega
      · exact ih _

/-- C7 amended.  For any two consecutive publish stages of the BLS loop the
gap between their start times is at least 5 seconds, and every post — the
first one included — is granted no earlier than 5 seconds after its
iteration began and never before the item is ready; in the arXiv loop two
consecutive iterations begin at least 1 second apart.  The first publish is,
however, delayed by the timer (see the counterexample): the timer is created
at the start of each iteration and awaited before posting even when no
earlier publish exists. -/
theorem c7_publish_gaps (env : Env) (d : Durs) (idxs : List Nat) (t : Nat)
    (aenv : AEnv) (ad : ADurs) (aidxs : List Nat) (at0 : Nat) :
    List.Chain' (fun p q : Nat × Nat => p.2 + 5 ≤ q.2) (timedRun env d idxs t).2 ∧
    (∀ p ∈ (timedRun env d idxs t).2, t + 5 ≤ p.2 ∧ p.1 ≤ p.2) ∧
    List.Chain' (fun a b : Nat => a + 1 ≤ b) (arxivStarts aenv ad aidxs at0) :=
  ⟨timedRun_chain env d idxs t, fun p hp => timedRun_post_ge env d idxs t p hp,
    arxivStarts_chain aenv ad aidxs at0⟩

/-- C7 counterexample.  With instantaneous activities and a single item the
publish is ready at time 0 — no earlier publish exists — yet it is granted
only at time 5: the first publish for the resource is delayed by the limiter,
because the 5-second timer created at the start of the iteration is awaited
before posting. -/
theorem c7_counterexample :
    (timedRun cEnvScenA ⟨fun _ => 0, fun _ => 0, fun _ => 0, fun _ => 0⟩ [0] 0).2 =
      [(0, 5)] ∧ (0 : Nat) < 5 :=
  ⟨rfl, by decide⟩

theorem c7_publish_gaps_witness :
    List.Chain' (fun p q : Nat × Nat => p.2 + 5 ≤ q.2)
      (timedRun cEnvScenA ⟨fun _ => 0, fun _ => 0, fun _ => 0, fun _ => 0⟩ [0, 2] 0).2 ∧
    (timedRun cEnvScenA ⟨fun _ => 0, fun _ => 0, fun _ => 0, fun _ => 0⟩ [0, 2] 0).2 =
      [(0, 5), (5, 10)] ∧
    List.Chain' (fun a b : Nat => a + 1 ≤ b)
      (arxivStarts cAEnvOk ⟨fun _ => 0, fun _ => 0⟩ [0, 1] 0) :=
  ⟨(c7_publish_gaps cEnvScenA ⟨fun _ => 0, fun _ => 0, fun _ => 0, fun _ => 0⟩ [0, 2] 0
      cAEnvOk ⟨fun _ => 0, fun _ => 0⟩ [0, 1] 0).1, rfl,
    (c7_publish_gaps cEnvScenA ⟨fun _ => 0, fun _ => 0, fun _ => 0, fun _ => 0⟩ [0, 2] 0
      cAEnvOk ⟨fun _ => 0, fun _ => 0⟩ [0, 1] 0).2.2⟩

/-! ### Claim C9: FindEvents -/

/-- C9 amended.  FindEvents(mins) returns exactly those events whose Start is
non-nil, strictly after `now - trunc(mins)` minutes and strictly before `now`:
Go's conversion `time.Duration(mins)` truncates the float64 toward zero before
the multiplication by time.Minute, so for fractional mins the cutoff uses
trunc(mins), not mins; for whole-number mins (the second conjunct) the
truncation is the identity, so there the claim's cutoff `now - mins` minutes
is exact. -/
theorem c9_find_events_filter (mins : GoFloat) (now : Int) (evs : List Event) :
    FindEvents mins now evs =
      evs.filter (fun e =>
        match e.start with
        | none => false
        | some s => decide (now - goTrunc mins * nsPerMinute < s ∧ s < now)) ∧
    (∀ k : Int, goTrunc ⟨k, 1⟩ = k) := by
  constructor
  · induction evs with
    | nil => rfl
    | cons e rest ih =>
      rw [FindEvents, List.filter_cons]
      rcases hs : e.start with _ | s
      · simp only [hs]
        simp [ih]
      · simp only [hs]
        by_cases hcond : now - goTrunc mins * nsPerMinute < s ∧ s < now
        · simp [hcond, ih]
        · simp [hcond, ih]
  · intro k
    show Int.tdiv k 1 = k
    exact Int.tdiv_one k

/-- C9 counterexample.  With mins = 1.5 (the float64 3/2) and an event 80
seconds old, the claim's window `now - mins minutes < start < now` holds
(after clearing the denominator: 2·now - 3·minute < 2·start), yet FindEvents
excludes the event: the code's cutoff is `now - time.Duration(1.5)*time.Minute
= now - 1 minute`, because the float-to-Duration conversion truncates. -/
theorem c9_counterexample :
    FindEvents ⟨3, 2⟩ 0 [⟨"e", some (-80000000000)⟩] = [] ∧
    2 * (0 : Int) - 3 * nsPerMinute < 2 * (-80000000000) ∧
    (-80000000000 : Int) < 0 :=
  ⟨rfl, by decide, by decide⟩

/-! ### Claim C10: ExtractSummary -/

theorem prefixOf_spec (l1 l2 : List Char) : l1.isPrefixOf l2 = true ↔ l1 <+: l2 :=
  List.isPrefixOf_iff_prefix

theorem indexOfSub_spec (pat : List Char) :
    ∀ s : List Char,
      (∀ i, indexOfSub pat s = some i →
        pat <+: s.drop i ∧ ∀ j < i, ¬ pat <+: s.drop j) ∧
      (indexOfSub pat s = none → ∀ j, ¬ pat <+: s.drop j) ∧
      (∀ i, pat <+: s.drop i → (∀ j < i, ¬ pat <+: s.drop j) → indexOfSub pat s = some i) := by
  intro s
  induction s with
  | nil =>
    refine ⟨?_, ?_, ?_⟩
    · intro i h
      rw [indexOfSub] at h
      by_cases hp : pat.isPrefixOf ([] : List Char) = true
      · rw [if_pos hp] at h
        cases h
        refine ⟨by simpa using prefixOf_spec _ _ |>.mp hp, ?_⟩
        intro j hj
        omega
      · rw [if_neg hp] at h
        cases h
    · intro h j hpre
      rw [indexOfSub] at h
      by_cases hp : pat.isPrefixOf ([] : List Char) = true
      · rw [if_pos hp] at h
        cases h
      · have h0 : pat <+: ([] : List Char) := by simpa using hpre
        exact hp (prefixOf_spec _ _ |>.mpr h0)
    · intro i hpre hmin
      have h0 : pat <+: ([] : List Char) := by simpa using hpre
      have hi : i = 0 := by
        by_contra hne
        exact hmin 0 (Nat.pos_of_ne_zero hne) (by simpa using h0)
      subst hi
      rw [indexOfSub, if_pos (prefixOf_spec _ _ |>.mpr h0)]
  | cons c rest ih =>
    obtain ⟨ih1, ih2, ih3⟩ := ih
    by_cases hp : pat.isPrefixOf (c :: rest) = true
    · refine ⟨?_, ?_, ?_⟩
      · intro i h
        rw [indexOfSub, if_pos hp] at h
        cases h
        refine ⟨by simpa using prefixOf_spec _ _ |>.mp hp, ?_⟩
        intro j hj
        omega
      · intro h
        rw [indexOfSub, if_pos hp] at h
        cases h
      · intro i hpre hmin
        have hi : i = 0 := by
          by_contra hne
          exact hmin 0 (Nat.pos_of_ne_zero hne)
            (by simpa using prefixOf_spec _ _ |>.mp hp)
        subst hi
        rw [indexOfSub, if_pos hp]
    · refine ⟨?_, ?_, ?_⟩
      · intro i h
        rw [indexOfSub, if_neg hp] at h
        rcases hrec : indexOfSub pat rest with _ | i0 <;> rw [hrec] at h
        · simp at h
        · have hi : i = i0 + 1 := by
            simpa using h.symm
          subst hi
          obtain ⟨hpre0, hmin0⟩ := ih1 i0 hrec
          refine ⟨by simpa [List.drop_succ_cons] using hpre0, ?_⟩
          intro j hj
          rcases j with _ | j0
          · intro hc
            exact hp (prefixOf_spec _ _ |>.mpr (by simpa using hc))
          · rw [List.drop_succ_cons]
            exact hmin0 j0 (by omega)
      · intro h j
        rw [indexOfSub, if_neg hp] at h
        rcases hrec : indexOfSub pat rest with _ | i0 <;> rw [hrec] at h
        · rcases j with _ | j0
          · intro hc
            exact hp (prefixOf_spec _ _ |>.mpr (by simpa using hc))
          · rw [List.drop_succ_cons]
            exact ih2 hrec j0
        · simp at h
      · intro i hpre hmin
        have hi0 : i ≠ 0 := by
          intro h0
          subst h0
          exact hp (prefixOf_spec _ _ |>.mpr (by simpa using hpre))
        rcases i with _ | i0
        · exact absurd rfl hi0
        · rw [indexOfSub, if_neg hp]
          have hrec := ih3 i0 (by simpa [List.drop_succ_cons] using hpre)
            (fun j hj => by
              have hm := hmin (j + 1) (by omega)
              simpa [List.drop_succ_cons] using hm)
          rw [hrec]
          rfl

theorem not_sub_of_bounded (pat s : List Char) (hpat : pat ≠ [])
    (h : ∀ j < s.length, ¬ pat <+: s.drop j) : ∀ j, ¬ pat <+: s.drop j := by
  intro j
  by_cases hj : j < s.length
  · exact h j hj
  · intro hc
    have hdrop : s.drop j = [] := List.drop_eq_nil_of_le (by omega)
    rw [hdrop] at hc
    exact hpat (List.prefix_nil.mp hc)

/-- C10.  ExtractSummary returns an error exactly when the parsed document has
no pre element (and that error is the only one it ever returns); otherwise it
returns the concatenated text of the pre selection, truncated just before the
first occurrence of the separator "__________" when one occurs, and in full
when none occurs. -/
theorem c10_extract_summary (preTexts : List String) :
    (ExtractSummary preTexts = .error "no <pre> tag found in document" ↔ preTexts = []) ∧
    (∀ e, ExtractSummary preTexts = .error e → e = "no <pre> tag found in document") ∧
    (∀ i, separator.data <+: (String.join preTexts).data.drop i →
      (∀ j < i, ¬ separator.data <+: (String.join preTexts).data.drop j) →
      ExtractSummary preTexts = .ok ⟨(String.join preTexts).data.take i⟩) ∧
    ((∀ j, ¬ separator.data <+: (String.join preTexts).data.drop j) →
      preTexts ≠ [] → ExtractSummary preTexts = .ok (String.join preTexts)) := by
  by_cases hemp : preTexts = []
  · subst hemp
    refine ⟨by simp [ExtractSummary], ?_, ?_, ?_⟩
    · intro e h
      rw [ExtractSummary] at h
      simp at h
      exact h.symm
    · intro i hpre _
      exfalso
      have h0 : separator.data <+: ([] : List Char) := by
        simpa [String.join] using hpre
      have : separator.data = [] := List.prefix_nil.mp h0
      exact absurd this (by decide)
    · intro _ hne
      exact absurd rfl hne
  · have hlen : ¬ preTexts.length = 0 := by
      simpa [List.length_eq_zero] using hemp
    obtain ⟨hsome, hnone, hcomplete⟩ :=
      indexOfSub_spec separator.data (String.join preTexts).data
    refine ⟨?_, ?_, ?_, ?_⟩
    · rw [ExtractSummary, if_neg hlen]
      constructor
      · intro h
        exfalso
        rcases hidx : indexOfSub separator.data (String.join preTexts).data with _ | i <;>
          rw [hidx] at h <;> cases h
      · intro h
        exact absurd h hemp
    · intro e h
      rw [ExtractSummary, if_neg hlen] at h
      rcases hidx : indexOfSub separator.data (String.join preTexts).data with _ | i <;>
        rw [hidx] at h <;> cases h
    · intro i hpre hmin
      have hidx := hcomplete i hpre hmin
      rw [ExtractSummary, if_neg hlen, hidx]
    · intro hno _
      have hidx : indexOfSub separator.data (String.join preTexts).data = none := by
        rcases hidx : indexOfSub separator.data (String.join preTexts).data with _ | i
        · rfl
        · exact absurd (hsome i hidx).1 (hno i)
      rw [ExtractSummary, if_neg hlen, hidx]

theorem c10_extract_summary_witness :
    ExtractSummary ["This is the summary.          __________     Some other text."] =
      .ok "This is the summary.          " ∧
    ExtractSummary [] = .error "no <pre> tag found in document" ∧
    ExtractSummary ["This is a complete summary without a line."] =
      .ok "This is a complete summary without a line." := by
  refine ⟨?_, ?_, ?_⟩
  · exact (c10_extract_summary
      ["This is the summary.          __________     Some other text."]).2.2.1 30
      (by decide) (by decide)
  · exact (c10_extract_summary []).1.mpr rfl
  · exact (c10_extract_summary ["This is a complete summary without a line."]).2.2.2
      (not_sub_of_bounded _ _ (by decide) (by decide)) (by decide)
